import Mathlib

/-!
Verification of the dependency-graph subsystem of the supersetbot repository.

The JavaScript source (src/utils.js and src/github.js) is shallowly embedded
below: strings are Lean `String`s (worked on through their `List Char` data),
JS objects used as string-keyed maps become insertion-ordered association
lists, JS `null`/`undefined` become `Option.none`, and the mutable
single-pass parser state becomes an explicit accumulator threaded through a
fold.  Each definition mirrors one JS function or expression; comments note
the corresponding JS line.
-/

set_option maxRecDepth 8000
set_option exponentiation.threshold 2048

namespace Supersetbot

/-- Whitespace characters trimmed by JS `String.prototype.trim` (restricted
to the ASCII whitespace occurring in lockfile/diff text). -/
def isWsChar (c : Char) : Bool :=
  c = ' ' || c = '\t' || c = '\n' || c = '\r'

/-- JS `s.trim()` on the character list of a string. -/
def trimCh (l : List Char) : List Char :=
  ((l.dropWhile isWsChar).reverse.dropWhile isWsChar).reverse

/-- JS `s.split(sep)` for a single-character separator: keeps empty pieces,
and the empty string splits to `[""]`. -/
def splitOnChar (sep : Char) : List Char → List (List Char)
  | [] => [[]]
  | c :: rest =>
    if c = sep then [] :: splitOnChar sep rest
    else
      match splitOnChar sep rest with
      | h :: t => (c :: h) :: t
      | [] => [[c]]

/-- JS `s.replace(pat, '')` with a plain-string pattern: removes the first
occurrence of `pat` only (JS `replace` with a string replaces one match). -/
def removeFirstOcc (pat : List Char) : List Char → List Char
  | [] => []
  | c :: rest =>
    if pat.isPrefixOf (c :: rest) then (c :: rest).drop pat.length
    else c :: removeFirstOcc pat rest

/-- Splits `cs` at the rightmost occurrence of `"=="` into the text before
and after it; `none` when `"=="` does not occur.  The rightmost occurrence
mirrors the greedy `(.+)` in the JS regex `/^(.+)==(.*)/`. -/
def lastEqEqSplit : List Char → Option (List Char × List Char)
  | [] => none
  | c :: rest =>
    match lastEqEqSplit rest with
    | some (pre, post) => some (c :: pre, post)
    | none =>
      if c = '=' then
        match rest with
        | '=' :: rest2 => some ([], rest2)
        | _ => none
      else none

/-- JS `line.match(/^(.+)==(.*)/)`: the match exists exactly when `"=="`
occurs with at least one character before it; group 1 is greedy, so the
split is at the rightmost `"=="`. -/
def parseDepLine (cs : List Char) : Option (List Char × List Char) :=
  match lastEqEqSplit cs with
  | some (pre, post) => if pre = [] then none else some (pre, post)
  | none => none

/-- One node of the dependency graph: JS object
`{ version, deps, vias }` built by `parsePinnedRequirementsTree`.
`version = none` models JS `null`/`undefined`. -/
structure ReqNode where
  version : Option String
  deps : List String
  vias : List String
deriving Repr, DecidableEq

/-- A JS object used as a string-keyed map, as an insertion-ordered
association list. -/
abbrev Graph := List (String × ReqNode)

/-- JS property lookup `g[k]` on an association list (`none` = absent). -/
def lookupG {α : Type} : List (String × α) → String → Option α
  | [], _ => none
  | (k9, v) :: rest, k => if k = k9 then some v else lookupG rest k

/-- JS in-place mutation of the entry at key `k` (e.g. `g[k].deps.push(x)`):
rewrites the value stored under `k`, leaves other keys alone. -/
def modG {α : Type} (k : String) (f : α → α) : List (String × α) → List (String × α)
  | [] => []
  | (k9, v) :: rest =>
    if k9 = k then (k9, f v) :: modG k f rest else (k9, v) :: modG k f rest

/-- Mutable state of the single-pass lockfile parser: the object under
construction and the JS variable `currentDep` (`none` = JS `null`). -/
structure PState where
  graph : Graph
  current : Option String
deriving Repr, DecidableEq

/-- The via-library name extracted from a non-`==` line:
JS `line.replace('# via', '').trim().replace('#', '').trim()`. -/
def viaName (line : String) : String :=
  String.mk (trimCh (removeFirstOcc ['#'] (trimCh (removeFirstOcc "# via".data line.data))))

/-- The body of the via-annotation branch of the parser loop (JS lines
`depsObject[viaLib] = {...}` / `.deps.push(currentDep)` /
`depsObject[currentDep] = {...}` / `.vias.push(viaLib)`): ensure a node
for `v`, push `c` onto its `deps`, ensure a node for `c`, push `v` onto
its `vias`. -/
def viaUpdate (g : Graph) (v c : String) : Graph :=
  let g1 := if lookupG g v = none then g ++ [(v, ⟨none, [], []⟩)] else g
  let g2 := modG v (fun n => { n with deps := n.deps ++ [c] }) g1
  let g3 := if lookupG g2 c = none then g2 ++ [(c, ⟨none, [], []⟩)] else g2
  modG c (fun n => { n with vias := n.vias ++ [v] }) g3

/-- One iteration of the `lines.forEach` body of
`parsePinnedRequirementsTree`.  Lines reaching this point are trimmed,
lowercased and non-empty, so the dep-line name below is never empty; the
`name ≠ ""` guard reproduces the JS truthiness test on `currentDep`
(for an empty name with a non-empty version the JS code would throw on
`depsObject[''].version`, which is unreachable through the real entry
point; the model makes that dead branch a no-op). -/
def procReqLine (st : PState) (line : String) : PState :=
  match parseDepLine line.data with
  | some (preRaw, postRaw) =>
    let name := String.mk (trimCh preRaw)
    let ver := String.mk (trimCh postRaw)
    let g :=
      if name ≠ "" ∧ lookupG st.graph name = none then
        st.graph ++ [(name, ⟨some ver, [], []⟩)]
      else if ver ≠ "" then
        modG name (fun n => { n with version := some ver }) st.graph
      else st.graph
    ⟨g, some name⟩
  | none =>
    let v := viaName line
    match st.current with
    | some c =>
      if v ≠ "" ∧ c ≠ "" then ⟨viaUpdate st.graph v c, some c⟩ else st
    | none => st

/-- JS `parsePinnedRequirementsTree(requirements)` from src/utils.js:
preprocessing pipeline (drop unindented comment lines, trim + lowercase,
drop `# via -r ` and `-e ` lines, drop blanks) followed by the stateful
line scan. -/
def parsePinnedRequirementsTree (requirements : String) : Graph :=
  let ls0 := splitOnChar '\n' requirements.data
  let ls1 := ls0.filter (fun l => !("#".data.isPrefixOf l))
  let ls2 := ls1.map (fun l => (trimCh l).map Char.toLower)
  let ls3 := ls2.filter (fun l => !("# via -r ".data.isPrefixOf l))
  let ls4 := ls3.filter (fun l => !("-e ".data.isPrefixOf l))
  let ls5 := ls4.filter (fun l => !l.isEmpty)
  ((ls5.map String.mk).foldl procReqLine ⟨[], none⟩).graph

/-- JS `allDescendantPackages(parent)` from src/github.js, with the package
tree passed explicitly.  The body is
`for (const child of tree[parent] || []) { ... }`: when `parent` is absent
the loop runs over `[]` and the function returns `[parent]`; when `parent`
is present, `tree[parent]` is the node object `{version, deps, vias}`,
which has no iterator, so the `for...of` head throws a TypeError before any
iteration (the recursive loop body is unreachable). -/
def allDescendantPackages (tree : Graph) (parent : String) : Except String (List String) :=
  match lookupG tree parent with
  | none => Except.ok [parent]
  | some _ => Except.error "TypeError: tree[parent] is not iterable"

/-- First-occurrence de-duplication with an explicit seen accumulator:
the order and membership semantics of JS `[...new Set(l)]`. -/
def dedupAcc : List String → List String → List String
  | _, [] => []
  | seen, x :: xs =>
    if x ∈ seen then dedupAcc seen xs else x :: dedupAcc (x :: seen) xs

/-- JS `[...new Set(l)]`: drops duplicates, keeping each element at its
first occurrence. -/
def jsSetList (l : List String) : List String := dedupAcc [] l

/-- JS `g[k]?.deps || []`. -/
def depsOf (g : Graph) (k : String) : List String :=
  match lookupG g k with
  | some n => n.deps
  | none => []

/-- JS `g[k]?.vias || []`. -/
def viasOf (g : Graph) (k : String) : List String :=
  match lookupG g k with
  | some n => n.vias
  | none => []

/-- JS `g[k]?.version` (`none` models both a missing key and a `null`
version). -/
def versionOf (g : Graph) (k : String) : Option String :=
  (lookupG g k).bind (fun n => n.version)

/-- JS truthiness of a version value: `null`/`undefined` and the empty
string are falsy, every other string is truthy. -/
def truthyVer : Option String → Bool
  | none => false
  | some s => s ≠ ""

/-- The key list of a JS object in insertion order (`Object.keys`). -/
def keysOf (g : Graph) : List String := g.map Prod.fst

/-- JS `mergeParsedRequirementsTree(obj1, obj2)` from src/utils.js:
iterates the set-union of the key lists in insertion order and builds, for
each key, the `Set`-deduplicated concatenations of `deps` and `vias` and
the first truthy version (`obj1[key]?.version || obj2[key]?.version`). -/
def mergeParsedRequirementsTree (a b : Graph) : Graph :=
  (jsSetList (keysOf a ++ keysOf b)).map (fun k =>
    (k, { version := if truthyVer (versionOf a k) then versionOf a k else versionOf b k,
          deps := jsSetList (depsOf a k ++ depsOf b k),
          vias := jsSetList (viasOf a k ++ viasOf b k) }))

/-- Numeric value of a list of decimal digits. -/
def digitsVal (l : List Char) : Nat :=
  l.foldl (fun n c => 10 * n + (c.toNat - '0'.toNat)) 0

/-- Fuel-bounded floor of the binary logarithm (structural in the fuel so
that it evaluates inside the kernel). -/
def log2Fuel : Nat → Nat → Nat
  | 0, _ => 0
  | fuel + 1, n => if 2 ≤ n then log2Fuel fuel (n / 2) + 1 else 0

/-- Floor of `log2 n`, with enough fuel for every magnitude below the
IEEE-754 overflow threshold (values at or above `2 ^ 1024` are rejected by
`roundDouble` whatever this returns). -/
def jsLog2 (n : Nat) : Nat := log2Fuel 1100 n

/-- IEEE-754 conversion of an exact nonnegative integer to a double
(round to nearest, ties to even): integers up to `2 ^ 53` are exactly
representable and kept as-is; above that the value is rounded to 53
significant bits, so e.g. `9007199254740993 = 2 ^ 53 + 1` becomes
`9007199254740992 = 2 ^ 53`.  Every double produced this way is itself an
integer, so the result stays a `Nat`.  Values that would overflow to
`Infinity` (at least `2 ^ 1024` after rounding) are not modelled and give
`none`, like the other exotic `Number` forms. -/
def roundDouble (n : Nat) : Option Nat :=
  if n ≤ 2 ^ 53 then some n
  else
    let e := jsLog2 n - 52
    let q := n / 2 ^ e
    let r := n % 2 ^ e
    let half := 2 ^ (e - 1)
    let m :=
      if half < r then q + 1
      else if r < half then q
      else if q % 2 = 0 then q else q + 1
    if 2 ^ 1024 ≤ m * 2 ^ e then none else some (m * 2 ^ e)

/-- Decimal-numeral analysis shared by the JS `Number` model and the
written-value reader: trim whitespace, an empty remainder is the numeral
`0` (JS `Number('') = 0`), an optional sign followed only by decimal
digits gives the sign bit and digit value, anything else is no numeral. -/
def numParse (l : List Char) : Option (Bool × Nat) :=
  let t := trimCh l
  if t.isEmpty then some (false, 0)
  else
    let isNeg : Bool := t.head? = some '-'
    let isPos : Bool := t.head? = some '+'
    let digits := if isNeg || isPos then t.drop 1 else t
    if !digits.isEmpty && digits.all Char.isDigit then some (isNeg, digitsVal digits)
    else none

/-- The signed integer value of a sign bit and magnitude. -/
def signedVal (p : Bool × Nat) : Int :=
  if p.1 then -(p.2 : Int) else (p.2 : Int)

/-- JS `Number(s)` restricted to the strings that can appear as a
dot-separated version component (hence no `'.'` inside): whitespace is
trimmed, the empty string converts to `0`, an optional sign followed by
decimal digits converts to the signed value **after IEEE-754 double
rounding** (`roundDouble`), and everything else is `NaN`, modelled as
`none`.  (The exotic JS forms — hexadecimal, exponent, `Infinity`, and
digit strings overflowing to `Infinity` — are not modelled and also fall
to `none`.) -/
def jsNumber (l : List Char) : Option Int :=
  match numParse l with
  | some (neg, n) =>
    match roundDouble n with
    | some v => some (signedVal (neg, v))
    | none => none
  | none => none

/-- The integer literally written in a component, exact and unrounded —
the value the specification's "parsed as an integer, compared
numerically" wording refers to.  Spec-side definition used to state C5;
it differs from the code's `jsNumber` only by the absence of double
rounding. -/
def decIntValue (l : List Char) : Option Int :=
  (numParse l).map signedVal

/-- The written integer value of the `i`-th dot-separated component of a
version string (spec-side companion of `compAt`). -/
def decIntOfComp (s : String) (i : Nat) : Option Int :=
  match (splitOnChar '.' s.data).get? i with
  | some c => decIntValue c
  | none => none

/-- JS `a.split('.').map(Number)`; `none` entries are `NaN`. -/
def semverComps (s : String) : List (Option Int) :=
  (splitOnChar '.' s.data).map jsNumber

/-- JS array indexing `splitA[i]`: out-of-range gives `undefined`, which
behaves exactly like `NaN` in the `<`/`>` comparisons below, so both are
`none`. -/
def compAt (l : List (Option Int)) (i : Nat) : Option Int :=
  match l.get? i with
  | some v => v
  | none => none

/-- JS `x > y` where either side may be `NaN`/`undefined`: any comparison
involving a non-number is false. -/
def jsGtO : Option Int → Option Int → Bool
  | some x, some y => y < x
  | _, _ => false

/-- JS `x < y` with `NaN`/`undefined` semantics. -/
def jsLtO : Option Int → Option Int → Bool
  | some x, some y => x < y
  | _, _ => false

/-- The `for (let i = 0; i < 3; i++)` loop of `compareSemVer`, with the
remaining iteration count made structural: `semverRem sa sb rem i` runs the
loop body at indices `i, i+1, ...` for `rem` more iterations and returns
`0` when the loop ends. -/
def semverRem (sa sb : List (Option Int)) : Nat → Nat → Int
  | 0, _ => 0
  | rem + 1, i =>
    if jsGtO (compAt sa i) (compAt sb i) then 1
    else if jsLtO (compAt sa i) (compAt sb i) then -1
    else semverRem sa sb rem (i + 1)

/-- JS `compareSemVer(a, b)` from src/utils.js. -/
def compareSemVer (a b : String) : Int :=
  semverRem (semverComps a) (semverComps b) 3 0

/-- Per-package result of the diff extractor: JS
`{ before: null, after: null }` with `none` for `null`. -/
structure VersionChange where
  before : Option String
  after : Option String
deriving Repr, DecidableEq

/-- JS `line.includes('==')` on the character list. -/
def hasEqEq : List Char → Bool
  | [] => false
  | [_] => false
  | c1 :: c2 :: rest =>
    if c1 = '=' ∧ c2 = '=' then true else hasEqEq (c2 :: rest)

/-- JS `s.split('==')` (two-character separator, scanning left to right,
non-overlapping). -/
def splitEqEq : List Char → List (List Char)
  | [] => [[]]
  | [c] => [[c]]
  | c1 :: c2 :: rest =>
    if c1 = '=' ∧ c2 = '=' then [] :: splitEqEq rest
    else
      match splitEqEq (c2 :: rest) with
      | h :: t => (c1 :: h) :: t
      | [] => [[c1]]

/-- JS `line.startsWith(c)` for a single character. -/
def headIs (c : Char) : List Char → Bool
  | [] => false
  | x :: _ => x = c

/-- The lowercased library name of a diff line:
JS `line.slice(1).split('==')[0].toLowerCase()`. -/
def diffLibOf (line : String) : String :=
  String.mk (((splitEqEq (line.data.drop 1)).headD []).map Char.toLower)

/-- The version of a diff line: JS `line.slice(1).split('==')[1]`
(`none` models `undefined` when the slice has no `'=='`). -/
def diffVerOf (line : String) : Option String :=
  ((splitEqEq (line.data.drop 1)).get? 1).map String.mk

/-- One iteration of the `lines.forEach` body of
`processPythonReqsDiffOutput` from src/github.js. -/
def procDiffLine (res : List (String × VersionChange)) (line : String) :
    List (String × VersionChange) :=
  if !hasEqEq line.data then res
  else
    let isDel := headIs '-' line.data
    let isAdd := headIs '+' line.data
    if isDel || isAdd then
      let lib := diffLibOf line
      let res1 := if lookupG res lib = none then res ++ [(lib, ⟨none, none⟩)] else res
      if isDel then modG lib (fun e => { e with before := diffVerOf line }) res1
      else modG lib (fun e => { e with after := diffVerOf line }) res1
    else res

/-- JS `processPythonReqsDiffOutput(rawOutput)` from src/github.js. -/
def processPythonReqsDiffOutput (raw : String) : List (String × VersionChange) :=
  ((splitOnChar '\n' raw.data).map String.mk).foldl procDiffLine []

/-- The `before` recorded for `k` (readback helper: `none` when the key is
absent). -/
def beforeOf (res : List (String × VersionChange)) (k : String) : Option String :=
  match lookupG res k with
  | some e => e.before
  | none => none

/-- The `after` recorded for `k` (readback helper: `none` when the key is
absent). -/
def afterOf (res : List (String × VersionChange)) (k : String) : Option String :=
  match lookupG res k with
  | some e => e.after
  | none => none

/-- The bidirectional-edge invariant of the specification: `A` appears in
`B`'s `deps` (with `B` a key of the graph) exactly when `B` appears in
`A`'s `vias` (with `A` a key of the graph). -/
def EdgeInvariant (g : Graph) : Prop :=
  ∀ A B : String,
    (∃ nb, lookupG g B = some nb ∧ A ∈ nb.deps) ↔
    (∃ na, lookupG g A = some na ∧ B ∈ na.vias)

/-- Component-by-component integer comparison of two version triples, as
the specification words it: the first component where the two differ
decides, and the result is `0` when all three agree. -/
def specIntCompare3 (x0 x1 x2 y0 y1 y2 : Int) : Int :=
  if y0 < x0 then 1
  else if x0 < y0 then -1
  else if y1 < x1 then 1
  else if x1 < y1 then -1
  else if y2 < x2 then 1
  else if x2 < y2 then -1
  else 0

/-! Helper lemmas about the association-list primitives. -/

theorem lookupG_append_single {α : Type} (g : List (String × α)) (k x : String) (v : α) :
    lookupG (g ++ [(k, v)]) x =
      match lookupG g x with
      | some w => some w
      | none => if x = k then some v else none := by
  induction g with
  | nil => simp [lookupG]
  | cons p rest ih =>
    obtain ⟨k9, w⟩ := p
    by_cases h : x = k9 <;> simp [lookupG, h, ih]

theorem lookupG_modG {α : Type} (g : List (String × α)) (k x : String) (f : α → α) :
    lookupG (modG k f g) x = if x = k then (lookupG g k).map f else lookupG g x := by
  induction g with
  | nil => simp [lookupG, modG]
  | cons p rest ih =>
    obtain ⟨k9, w⟩ := p
    by_cases hk : k9 = k
    · subst hk
      by_cases hx : x = k9 <;> simp [lookupG, modG, hx, ih]
    · by_cases hx : x = k9
      · have hxk : ¬ x = k := by rw [hx]; exact hk
        simp [lookupG, modG, hk, hx, hxk]
      · simp [lookupG, modG, hk, hx, ih, Ne.symm hk]

theorem mem_keysOf_of_lookupG {g : Graph} {k : String} {n : ReqNode}
    (h : lookupG g k = some n) : k ∈ keysOf g := by
  induction g with
  | nil => simp [lookupG] at h
  | cons p rest ih =>
    obtain ⟨k9, w⟩ := p
    by_cases hx : k = k9
    · simp [keysOf, hx]
    · simp only [lookupG, if_neg hx] at h
      simp [keysOf] at ih ⊢
      exact Or.inr (ih h)

theorem lookupG_keyMap (f : String → ReqNode) (l : List String) (x : String) :
    lookupG (l.map (fun k => (k, f k))) x = if x ∈ l then some (f x) else none := by
  induction l with
  | nil => simp [lookupG]
  | cons k ks ih =>
    by_cases h : x = k
    · subst h; simp [lookupG]
    · simp [lookupG, h, ih, List.mem_cons]

/-! Helper lemmas about first-occurrence de-duplication. -/

theorem mem_dedupAcc (x : String) :
    ∀ (l seen : List String), x ∈ dedupAcc seen l ↔ x ∈ l ∧ x ∉ seen := by
  intro l
  induction l with
  | nil => intro seen; simp [dedupAcc]
  | cons y ys ih =>
    intro seen
    by_cases h : y ∈ seen
    · rw [dedupAcc, if_pos h, ih]
      constructor
      · rintro ⟨hm, hn⟩; exact ⟨List.mem_cons_of_mem _ hm, hn⟩
      · rintro ⟨hm, hn⟩
        rcases List.mem_cons.mp hm with hm | hm
        · subst hm; exact absurd h hn
        · exact ⟨hm, hn⟩
    · rw [dedupAcc, if_neg h]
      constructor
      · intro hm
        rcases List.mem_cons.mp hm with hm | hm
        · subst hm; exact ⟨List.mem_cons_self _ _, h⟩
        · rcases (ih (y :: seen)).mp hm with ⟨h1, h2⟩
          refine ⟨List.mem_cons_of_mem _ h1, fun hc => h2 (List.mem_cons_of_mem _ hc)⟩
      · rintro ⟨hm, hn⟩
        rcases List.mem_cons.mp hm with hm | hm
        · subst hm; exact List.mem_cons_self _ _
        · by_cases hxy : x = y
          · subst hxy; exact List.mem_cons_self _ _
          · exact List.mem_cons_of_mem _ ((ih (y :: seen)).mpr
              ⟨hm, fun hc => (List.mem_cons.mp hc).elim hxy hn⟩)

theorem mem_jsSetList (x : String) (l : List String) : x ∈ jsSetList l ↔ x ∈ l := by
  rw [jsSetList, mem_dedupAcc]; simp

theorem dedupAcc_congr :
    ∀ (l s t : List String), (∀ a, a ∈ s ↔ a ∈ t) → dedupAcc s l = dedupAcc t l := by
  intro l
  induction l with
  | nil => intro s t _; rfl
  | cons y ys ih =>
    intro s t h
    by_cases hy : y ∈ s
    · rw [dedupAcc, dedupAcc, if_pos hy, if_pos ((h y).mp hy)]
      exact ih s t h
    · have hy2 : y ∉ t := fun hmem => hy ((h y).mpr hmem)
      rw [dedupAcc, dedupAcc, if_neg hy, if_neg hy2]
      refine congrArg (y :: ·) (ih _ _ ?_)
      intro a
      simp only [List.mem_cons, h a]

theorem dedupAcc_append :
    ∀ (xs ys seen : List String),
      dedupAcc seen (xs ++ ys) = dedupAcc seen xs ++ dedupAcc (xs ++ seen) ys := by
  intro xs
  induction xs with
  | nil => intro ys seen; simp [dedupAcc]
  | cons x xs ih =>
    intro ys seen
    by_cases h : x ∈ seen
    · rw [List.cons_append, dedupAcc, if_pos h, dedupAcc, if_pos h, ih]
      refine congrArg _ (dedupAcc_congr _ _ _ ?_)
      intro a
      simp only [List.cons_append, List.mem_cons, List.mem_append]
      constructor
      · rintro (ha | ha)
        · exact Or.inr (Or.inl ha)
        · exact Or.inr (Or.inr ha)
      · rintro (rfl | ha | ha)
        · exact Or.inr h
        · exact Or.inl ha
        · exact Or.inr ha
    · rw [List.cons_append, dedupAcc, if_neg h, dedupAcc, if_neg h, List.cons_append, ih]
      refine congrArg _ (congrArg _ (dedupAcc_congr _ _ _ ?_))
      intro a
      simp only [List.mem_cons, List.mem_append]
      tauto

theorem dedupAcc_seen_split :
    ∀ (ys s t : List String),
      dedupAcc (s ++ t) ys = dedupAcc s (ys.filter (fun y => decide (y ∉ t))) := by
  intro ys
  induction ys with
  | nil => intro s t; simp [dedupAcc]
  | cons y ys ih =>
    intro s t
    by_cases hyt : y ∈ t
    · have hmem : y ∈ s ++ t := List.mem_append.mpr (Or.inr hyt)
      rw [dedupAcc, if_pos hmem, List.filter_cons, if_neg (by simp [hyt]), ih]
    · rw [List.filter_cons, if_pos (by simp [hyt])]
      by_cases hys : y ∈ s
      · have hmem : y ∈ s ++ t := List.mem_append.mpr (Or.inl hys)
        rw [dedupAcc, if_pos hmem, dedupAcc, if_pos hys, ih]
      · have hmem : y ∉ s ++ t := by
          intro hc; rcases List.mem_append.mp hc with hc | hc
          · exact hys hc
          · exact hyt hc
        rw [dedupAcc, if_neg hmem, dedupAcc, if_neg hys]
        exact congrArg (y :: ·) (ih (y :: s) t)

theorem jsSetList_append (xs ys : List String) :
    jsSetList (xs ++ ys) =
      jsSetList xs ++ jsSetList (ys.filter (fun y => decide (y ∉ xs))) := by
  rw [jsSetList, dedupAcc_append, jsSetList]
  refine congrArg _ ?_
  have h1 : dedupAcc (xs ++ []) ys = dedupAcc ([] ++ xs) ys :=
    dedupAcc_congr _ _ _ (by intro a; simp)
  rw [h1, dedupAcc_seen_split, jsSetList]

/-! Characterisation of the merged graph. -/

theorem keysOf_keyMap (f : String → ReqNode) (l : List String) :
    keysOf (l.map (fun k => (k, f k))) = l := by
  induction l with
  | nil => rfl
  | cons k ks ih => simp only [List.map_cons, keysOf] at ih ⊢; rw [ih]

theorem keysOf_merge (a b : Graph) :
    keysOf (mergeParsedRequirementsTree a b) = jsSetList (keysOf a ++ keysOf b) := by
  unfold mergeParsedRequirementsTree
  exact keysOf_keyMap _ _

theorem lookupG_merge (a b : Graph) (k : String) :
    lookupG (mergeParsedRequirementsTree a b) k =
      if k ∈ keysOf a ++ keysOf b then
        some { version := if truthyVer (versionOf a k) then versionOf a k else versionOf b k,
               deps := jsSetList (depsOf a k ++ depsOf b k),
               vias := jsSetList (viasOf a k ++ viasOf b k) }
      else none := by
  unfold mergeParsedRequirementsTree
  rw [lookupG_keyMap]
  by_cases h : k ∈ keysOf a ++ keysOf b
  · rw [if_pos ((mem_jsSetList _ _).mpr h), if_pos h]
  · rw [if_neg (fun hc => h ((mem_jsSetList _ _).mp hc)), if_neg h]

/-! Pointwise effect of the parser-loop graph updates. -/

theorem depsOf_append_empty (g : Graph) (k : String) (ver : Option String) (B : String) :
    depsOf (g ++ [(k, ⟨ver, [], []⟩)]) B = depsOf g B := by
  unfold depsOf
  rw [lookupG_append_single]
  cases hl : lookupG g B with
  | some n => rfl
  | none => by_cases hb : B = k <;> simp [hb]

theorem viasOf_append_empty (g : Graph) (k : String) (ver : Option String) (B : String) :
    viasOf (g ++ [(k, ⟨ver, [], []⟩)]) B = viasOf g B := by
  unfold viasOf
  rw [lookupG_append_single]
  cases hl : lookupG g B with
  | some n => rfl
  | none => by_cases hb : B = k <;> simp [hb]

theorem depsOf_modG_keep (g : Graph) (k : String) (f : ReqNode → ReqNode)
    (hf : ∀ n, (f n).deps = n.deps) (B : String) :
    depsOf (modG k f g) B = depsOf g B := by
  unfold depsOf
  rw [lookupG_modG]
  by_cases hb : B = k
  · subst hb; cases hl : lookupG g B <;> simp [hl, hf]
  · rw [if_neg hb]

theorem viasOf_modG_keep (g : Graph) (k : String) (f : ReqNode → ReqNode)
    (hf : ∀ n, (f n).vias = n.vias) (B : String) :
    viasOf (modG k f g) B = viasOf g B := by
  unfold viasOf
  rw [lookupG_modG]
  by_cases hb : B = k
  · subst hb; cases hl : lookupG g B <;> simp [hl, hf]
  · rw [if_neg hb]

theorem depsOf_modG_push (g : Graph) (k c : String) (hk : lookupG g k ≠ none) (B : String) :
    depsOf (modG k (fun n => { n with deps := n.deps ++ [c] }) g) B =
      if B = k then depsOf g k ++ [c] else depsOf g B := by
  unfold depsOf
  rw [lookupG_modG]
  by_cases hb : B = k
  · subst hb
    rw [if_pos rfl, if_pos rfl]
    cases hl : lookupG g B with
    | none => exact absurd hl hk
    | some n => simp [hl]
  · rw [if_neg hb, if_neg hb]

theorem viasOf_modG_push (g : Graph) (k v : String) (hk : lookupG g k ≠ none) (B : String) :
    viasOf (modG k (fun n => { n with vias := n.vias ++ [v] }) g) B =
      if B = k then viasOf g k ++ [v] else viasOf g B := by
  unfold viasOf
  rw [lookupG_modG]
  by_cases hb : B = k
  · subst hb
    rw [if_pos rfl, if_pos rfl]
    cases hl : lookupG g B with
    | none => exact absurd hl hk
    | some n => simp [hl]
  · rw [if_neg hb, if_neg hb]

theorem depsOf_viaUpdate (g : Graph) (v c B : String) :
    depsOf (viaUpdate g v c) B = if B = v then depsOf g v ++ [c] else depsOf g B := by
  simp only [viaUpdate]
  set g1 := if lookupG g v = none then g ++ [(v, (⟨none, [], []⟩ : ReqNode))] else g with hg1
  set g2 := modG v (fun n => { n with deps := n.deps ++ [c] }) g1 with hg2
  set g3 := if lookupG g2 c = none then g2 ++ [(c, (⟨none, [], []⟩ : ReqNode))] else g2 with hg3
  have h1d : ∀ X, depsOf g1 X = depsOf g X := by
    intro X
    rw [hg1]
    by_cases hl : lookupG g v = none
    · rw [if_pos hl]; exact depsOf_append_empty g v none X
    · rw [if_neg hl]
  have h1lu : lookupG g1 v ≠ none := by
    rw [hg1]
    by_cases hl : lookupG g v = none
    · rw [if_pos hl, lookupG_append_single, hl]; simp
    · rw [if_neg hl]; exact hl
  have h2d : ∀ X, depsOf g2 X = if X = v then depsOf g v ++ [c] else depsOf g X := by
    intro X
    rw [hg2, depsOf_modG_push g1 v c h1lu, h1d, h1d]
  have h3d : ∀ X, depsOf g3 X = depsOf g2 X := by
    intro X
    rw [hg3]
    by_cases hl : lookupG g2 c = none
    · rw [if_pos hl]; exact depsOf_append_empty g2 c none X
    · rw [if_neg hl]
  rw [depsOf_modG_keep g3 c (fun n => { n with vias := n.vias ++ [v] }) (fun n => rfl),
    h3d, h2d]

theorem viasOf_viaUpdate (g : Graph) (v c B : String) :
    viasOf (viaUpdate g v c) B = if B = c then viasOf g c ++ [v] else viasOf g B := by
  simp only [viaUpdate]
  set g1 := if lookupG g v = none then g ++ [(v, (⟨none, [], []⟩ : ReqNode))] else g with hg1
  set g2 := modG v (fun n => { n with deps := n.deps ++ [c] }) g1 with hg2
  set g3 := if lookupG g2 c = none then g2 ++ [(c, (⟨none, [], []⟩ : ReqNode))] else g2 with hg3
  have h1v : ∀ X, viasOf g1 X = viasOf g X := by
    intro X
    rw [hg1]
    by_cases hl : lookupG g v = none
    · rw [if_pos hl]; exact viasOf_append_empty g v none X
    · rw [if_neg hl]
  have h2v : ∀ X, viasOf g2 X = viasOf g X := by
    intro X
    rw [hg2,
      viasOf_modG_keep g1 v (fun n => { n with deps := n.deps ++ [c] }) (fun n => rfl), h1v]
  have h3lu : lookupG g3 c ≠ none := by
    rw [hg3]
    by_cases hl : lookupG g2 c = none
    · rw [if_pos hl, lookupG_append_single, hl]; simp
    · rw [if_neg hl]; exact hl
  have h3v : ∀ X, viasOf g3 X = viasOf g X := by
    intro X
    rw [hg3]
    by_cases hl : lookupG g2 c = none
    · rw [if_pos hl, viasOf_append_empty, h2v]
    · rw [if_neg hl, h2v]
  rw [viasOf_modG_push g3 c v h3lu, h3v, h3v]

/-! The bidirectional-edge invariant: transfer lemmas and preservation. -/

theorem exists_deps_iff (g : Graph) (A B : String) :
    (∃ nb, lookupG g B = some nb ∧ A ∈ nb.deps) ↔ A ∈ depsOf g B := by
  cases h : lookupG g B <;> simp [depsOf, h]

theorem exists_vias_iff (g : Graph) (A B : String) :
    (∃ na, lookupG g A = some na ∧ B ∈ na.vias) ↔ B ∈ viasOf g A := by
  cases h : lookupG g A <;> simp [viasOf, h]

theorem edgeInvariant_iff (g : Graph) :
    EdgeInvariant g ↔ ∀ A B, A ∈ depsOf g B ↔ B ∈ viasOf g A := by
  unfold EdgeInvariant
  refine forall_congr' fun A => forall_congr' fun B => ?_
  rw [exists_deps_iff, exists_vias_iff]

theorem edgeInvariant_nil : EdgeInvariant ([] : Graph) := by
  intro A B
  simp [lookupG]

theorem depsOf_eq_nil_of_not_key {g : Graph} {B : String} (h : B ∉ keysOf g) :
    depsOf g B = [] := by
  cases hl : lookupG g B with
  | none => simp [depsOf, hl]
  | some n => exact absurd (mem_keysOf_of_lookupG hl) h

theorem viasOf_eq_nil_of_not_key {g : Graph} {B : String} (h : B ∉ keysOf g) :
    viasOf g B = [] := by
  cases hl : lookupG g B with
  | none => simp [viasOf, hl]
  | some n => exact absurd (mem_keysOf_of_lookupG hl) h

theorem mem_keysOf_of_mem_depsOf {g : Graph} {A B : String} (h : A ∈ depsOf g B) :
    B ∈ keysOf g := by
  by_contra hc
  rw [depsOf_eq_nil_of_not_key hc] at h
  exact absurd h (List.not_mem_nil A)

theorem mem_keysOf_of_mem_viasOf {g : Graph} {A B : String} (h : B ∈ viasOf g A) :
    A ∈ keysOf g := by
  by_contra hc
  rw [viasOf_eq_nil_of_not_key hc] at h
  exact absurd h (List.not_mem_nil B)

theorem depsOf_merge_mem (a b : Graph) (A B : String) :
    A ∈ depsOf (mergeParsedRequirementsTree a b) B ↔
      A ∈ depsOf a B ∨ A ∈ depsOf b B := by
  unfold depsOf
  rw [lookupG_merge]
  by_cases hy : B ∈ keysOf a ++ keysOf b
  · rw [if_pos hy]
    show A ∈ jsSetList (depsOf a B ++ depsOf b B) ↔ _
    rw [mem_jsSetList, List.mem_append]
    rfl
  · rw [if_neg hy]
    rw [List.mem_append] at hy
    push_neg at hy
    have ha := depsOf_eq_nil_of_not_key hy.1
    have hb := depsOf_eq_nil_of_not_key hy.2
    unfold depsOf at ha hb
    rw [ha, hb]
    simp

theorem viasOf_merge_mem (a b : Graph) (A B : String) :
    B ∈ viasOf (mergeParsedRequirementsTree a b) A ↔
      B ∈ viasOf a A ∨ B ∈ viasOf b A := by
  unfold viasOf
  rw [lookupG_merge]
  by_cases hy : A ∈ keysOf a ++ keysOf b
  · rw [if_pos hy]
    show B ∈ jsSetList (viasOf a A ++ viasOf b A) ↔ _
    rw [mem_jsSetList, List.mem_append]
    rfl
  · rw [if_neg hy]
    rw [List.mem_append] at hy
    push_neg at hy
    have ha := viasOf_eq_nil_of_not_key hy.1
    have hb := viasOf_eq_nil_of_not_key hy.2
    unfold viasOf at ha hb
    rw [ha, hb]
    simp

theorem procReqLine_preserves (st : PState) (line : String)
    (h : EdgeInvariant st.graph) : EdgeInvariant (procReqLine st line).graph := by
  rw [edgeInvariant_iff] at h
  unfold procReqLine
  cases hdep : parseDepLine line.data with
  | some pp =>
    obtain ⟨preRaw, postRaw⟩ := pp
    dsimp only
    rw [edgeInvariant_iff]
    by_cases h1 : String.mk (trimCh preRaw) ≠ "" ∧
        lookupG st.graph (String.mk (trimCh preRaw)) = none
    · rw [if_pos h1]
      intro A B
      rw [depsOf_append_empty, viasOf_append_empty]
      exact h A B
    · rw [if_neg h1]
      by_cases h2 : String.mk (trimCh postRaw) ≠ ""
      · rw [if_pos h2]
        intro A B
        rw [depsOf_modG_keep st.graph _
              (fun n => { n with version := some (String.mk (trimCh postRaw)) })
              (fun n => rfl),
            viasOf_modG_keep st.graph _
              (fun n => { n with version := some (String.mk (trimCh postRaw)) })
              (fun n => rfl)]
        exact h A B
      · rw [if_neg h2]
        exact h
  | none =>
    dsimp only
    cases hcur : st.current with
    | none => rw [edgeInvariant_iff]; exact h
    | some c =>
      dsimp only
      by_cases hvc : viaName line ≠ "" ∧ c ≠ ""
      · rw [if_pos hvc]
        rw [edgeInvariant_iff]
        intro A B
        show A ∈ depsOf (viaUpdate st.graph (viaName line) c) B ↔
          B ∈ viasOf (viaUpdate st.graph (viaName line) c) A
        rw [depsOf_viaUpdate, viasOf_viaUpdate]
        by_cases hBv : B = viaName line
        · rw [if_pos hBv]
          by_cases hAc : A = c
          · rw [if_pos hAc]
            simp [hAc, hBv, List.mem_append]
          · rw [if_neg hAc]
            constructor
            · intro hm
              rcases List.mem_append.mp hm with hm | hm
              · rw [hBv]
                exact (h A (viaName line)).mp hm
              · exact absurd (List.mem_singleton.mp hm) hAc
            · intro hm
              exact List.mem_append.mpr (Or.inl ((h A (viaName line)).mpr (hBv ▸ hm)))
        · rw [if_neg hBv]
          by_cases hAc : A = c
          · rw [if_pos hAc]
            constructor
            · intro hm
              exact List.mem_append.mpr (Or.inl (hAc ▸ (h A B).mp hm))
            · intro hm
              rcases List.mem_append.mp hm with hm | hm
              · exact (h A B).mpr (hAc.symm ▸ hm)
              · exact absurd (List.mem_singleton.mp hm) hBv
          · rw [if_neg hAc]
            exact h A B
      · rw [if_neg hvc]
        rw [edgeInvariant_iff]
        exact h

theorem edgeInvariant_foldl (lines : List String) :
    ∀ st : PState, EdgeInvariant st.graph →
      EdgeInvariant ((lines.foldl procReqLine st).graph) := by
  induction lines with
  | nil => intro st h; exact h
  | cons l ls ih => intro st h; exact ih _ (procReqLine_preserves st l h)

theorem edgeInvariant_parse (s : String) :
    EdgeInvariant (parsePinnedRequirementsTree s) := by
  unfold parsePinnedRequirementsTree
  exact edgeInvariant_foldl _ ⟨[], none⟩ edgeInvariant_nil

/-! Lemmas about the version comparator. -/

theorem compareSemVer_unfold (a b : String) :
    compareSemVer a b =
      (if jsGtO (compAt (semverComps a) 0) (compAt (semverComps b) 0) then 1
       else if jsLtO (compAt (semverComps a) 0) (compAt (semverComps b) 0) then -1
       else if jsGtO (compAt (semverComps a) 1) (compAt (semverComps b) 1) then 1
       else if jsLtO (compAt (semverComps a) 1) (compAt (semverComps b) 1) then -1
       else if jsGtO (compAt (semverComps a) 2) (compAt (semverComps b) 2) then 1
       else if jsLtO (compAt (semverComps a) 2) (compAt (semverComps b) 2) then -1
       else 0) := rfl

theorem semverRem_range (sa sb : List (Option Int)) :
    ∀ rem i, semverRem sa sb rem i = -1 ∨ semverRem sa sb rem i = 0 ∨
      semverRem sa sb rem i = 1 := by
  intro rem
  induction rem with
  | zero => intro i; right; left; rfl
  | succ r ih =>
    intro i
    rw [semverRem]
    by_cases h1 : jsGtO (compAt sa i) (compAt sb i)
    · rw [if_pos h1]; right; right; rfl
    · rw [if_neg h1]
      by_cases h2 : jsLtO (compAt sa i) (compAt sb i)
      · rw [if_pos h2]; left; rfl
      · rw [if_neg h2]; exact ih (i + 1)

theorem jsGtO_none_left (x : Option Int) : jsGtO none x = false := rfl

theorem jsGtO_none_right (x : Option Int) : jsGtO x none = false := by
  cases x <;> rfl

theorem jsLtO_none_left (x : Option Int) : jsLtO none x = false := rfl

theorem jsLtO_none_right (x : Option Int) : jsLtO x none = false := by
  cases x <;> rfl

theorem semverRem_skip (sa sb : List (Option Int)) (rem i : Nat)
    (h : compAt sa i = none ∨ compAt sb i = none) :
    semverRem sa sb (rem + 1) i = semverRem sa sb rem (i + 1) := by
  rw [semverRem]
  rcases h with h | h
  · rw [h, jsGtO_none_left, jsLtO_none_left]
    rfl
  · rw [h, jsGtO_none_right, jsLtO_none_right]
    rfl

theorem compAt_none_of_all_none {s : String} (h : ∀ c ∈ splitOnChar '.' s.data, jsNumber c = none) :
    ∀ i, compAt (semverComps s) i = none := by
  intro i
  unfold compAt semverComps
  cases hg : (splitOnChar '.' s.data).get? i with
  | none =>
    have : ((splitOnChar '.' s.data).map jsNumber).get? i = none := by
      rw [List.get?_eq_none] at hg ⊢
      simpa using hg
    rw [this]
  | some c =>
    have hc : c ∈ splitOnChar '.' s.data := List.get?_mem hg
    have : ((splitOnChar '.' s.data).map jsNumber).get? i = some (jsNumber c) := by
      rw [List.get?_eq_some] at hg ⊢
      obtain ⟨hlt, hv⟩ := hg
      refine ⟨by simpa using hlt, ?_⟩
      simp only [List.get_eq_getElem] at hv
      simp [hv]
    rw [this, h c hc]

theorem roundDouble_of_le (n : Nat) (h : n ≤ 2 ^ 53) : roundDouble n = some n := by
  unfold roundDouble
  rw [if_pos h]

theorem signedVal_natAbs (p : Bool × Nat) : (signedVal p).natAbs = p.2 := by
  obtain ⟨b, n⟩ := p
  cases b <;> simp [signedVal]

theorem jsNumber_of_decIntValue {c : List Char} {x : Int}
    (h : decIntValue c = some x) (hx : x.natAbs ≤ 2 ^ 53) :
    jsNumber c = some x := by
  unfold decIntValue at h
  cases hp : numParse c with
  | none => rw [hp] at h; simp at h
  | some p =>
    obtain ⟨neg, n⟩ := p
    rw [hp] at h
    have hsv : signedVal (neg, n) = x := Option.some_inj.mp h
    have hn : n ≤ 2 ^ 53 := by
      rw [← hsv, signedVal_natAbs] at hx
      exact hx
    unfold jsNumber
    rw [hp]
    show (match roundDouble n with
          | some v => some (signedVal (neg, v))
          | none => none) = some x
    rw [roundDouble_of_le n hn]
    show some (signedVal (neg, n)) = some x
    rw [hsv]

theorem compAt_of_decIntOfComp {s : String} {i : Nat} {x : Int}
    (h : decIntOfComp s i = some x) (hx : x.natAbs ≤ 2 ^ 53) :
    compAt (semverComps s) i = some x := by
  unfold decIntOfComp at h
  cases hg : (splitOnChar '.' s.data).get? i with
  | none => rw [hg] at h; simp at h
  | some c =>
    rw [hg] at h
    unfold compAt semverComps
    have hm : ((splitOnChar '.' s.data).map jsNumber).get? i = some (jsNumber c) := by
      rw [List.get?_eq_some] at hg ⊢
      obtain ⟨hlt, hv⟩ := hg
      refine ⟨by simpa using hlt, ?_⟩
      simp only [List.get_eq_getElem] at hv ⊢
      simp [hv]
    rw [hm, jsNumber_of_decIntValue h hx]

theorem compareSemVer_componentwise (a b : String) (x0 x1 x2 y0 y1 y2 : Int)
    (h0 : compAt (semverComps a) 0 = some x0) (h1 : compAt (semverComps a) 1 = some x1)
    (h2 : compAt (semverComps a) 2 = some x2) (g0 : compAt (semverComps b) 0 = some y0)
    (g1 : compAt (semverComps b) 1 = some y1) (g2 : compAt (semverComps b) 2 = some y2) :
    compareSemVer a b = specIntCompare3 x0 x1 x2 y0 y1 y2 := by
  rw [compareSemVer_unfold, h0, h1, h2, g0, g1, g2]
  simp only [jsGtO, jsLtO, specIntCompare3, decide_eq_true_eq]

/-! Lemmas about the diff extractor. -/

theorem splitEqEq_ne_nil (cs : List Char) : splitEqEq cs ≠ [] := by
  match cs with
  | [] => simp [splitEqEq]
  | [c] => simp [splitEqEq]
  | c1 :: c2 :: rest =>
    rw [splitEqEq]
    by_cases h : c1 = '=' ∧ c2 = '='
    · rw [if_pos h]; simp
    · rw [if_neg h]
      cases hs : splitEqEq (c2 :: rest) <;> simp

theorem two_le_splitEqEq_length :
    ∀ cs, hasEqEq cs = true → 2 ≤ (splitEqEq cs).length := by
  intro cs
  induction cs using splitEqEq.induct with
  | case1 => intro h; simp [hasEqEq] at h
  | case2 c => intro h; simp [hasEqEq] at h
  | case3 c1 c2 rest hEq ih =>
    intro _
    rw [splitEqEq, if_pos hEq]
    cases hs : splitEqEq rest with
    | nil => exact absurd hs (splitEqEq_ne_nil rest)
    | cons hd tl => simp
  | case4 c1 c2 rest hNe hd tl hs ih =>
    intro h
    rw [hasEqEq, if_neg hNe] at h
    rw [splitEqEq, if_neg hNe, hs]
    have h2 := ih h
    rw [hs] at h2
    simpa using h2
  | case5 c1 c2 rest hNe hs ih =>
    exact absurd hs (splitEqEq_ne_nil (c2 :: rest))

theorem diffVerOf_ne_none (line : String) (h1 : hasEqEq line.data = true)
    (h2 : headIs '-' line.data = true ∨ headIs '+' line.data = true) :
    diffVerOf line ≠ none := by
  cases hd : line.data with
  | nil => rw [hd] at h1; simp [hasEqEq] at h1
  | cons c rest =>
    have hc : c ≠ '=' := by
      rcases h2 with h2 | h2 <;> rw [hd] at h2 <;> simp [headIs] at h2 <;> rw [h2] <;> decide
    have hrest : hasEqEq rest = true := by
      rw [hd] at h1
      cases rest with
      | nil => simp [hasEqEq] at h1
      | cons c2 rest2 =>
        rw [hasEqEq, if_neg (fun hcc => hc hcc.1)] at h1
        exact h1
    have hlen := two_le_splitEqEq_length rest hrest
    unfold diffVerOf
    rw [hd]
    show (((splitEqEq rest).get? 1).map String.mk) ≠ none
    cases hg : (splitEqEq rest).get? 1 with
    | none =>
      have := List.get?_eq_none.mp hg
      omega
    | some p => simp

theorem procDiffLine_no_eqeq (res : List (String × VersionChange)) (line : String)
    (h : hasEqEq line.data = false) : procDiffLine res line = res := by
  unfold procDiffLine
  rw [h]
  rfl

theorem procDiffLine_no_marker (res : List (String × VersionChange)) (line : String)
    (h1 : headIs '-' line.data = false) (h2 : headIs '+' line.data = false) :
    procDiffLine res line = res := by
  unfold procDiffLine
  rw [h1, h2]
  cases h : hasEqEq line.data <;> rfl

theorem headIs_ne_of_del {l : List Char} (h : headIs '-' l = true) :
    headIs '+' l = false := by
  cases l with
  | nil => simp [headIs] at h
  | cons c rest =>
    simp [headIs] at h ⊢
    rw [h]
    decide

theorem procDiffLine_del (res : List (String × VersionChange)) (line : String)
    (h1 : hasEqEq line.data = true) (h2 : headIs '-' line.data = true) :
    lookupG (procDiffLine res line) (diffLibOf line) =
      some ⟨diffVerOf line, afterOf res (diffLibOf line)⟩
    ∧ ∀ k, k ≠ diffLibOf line → lookupG (procDiffLine res line) k = lookupG res k := by
  unfold procDiffLine
  rw [h1, h2]
  show (let lib := diffLibOf line
        let res1 := if lookupG res lib = none then res ++ [(lib, ⟨none, none⟩)] else res
        lookupG (modG lib (fun e => { e with before := diffVerOf line }) res1) (diffLibOf line) =
          some ⟨diffVerOf line, afterOf res (diffLibOf line)⟩) ∧ _
  by_cases hl : lookupG res (diffLibOf line) = none
  · constructor
    · show lookupG (modG (diffLibOf line) _
          (if lookupG res (diffLibOf line) = none
           then res ++ [(diffLibOf line, ⟨none, none⟩)] else res)) (diffLibOf line) = _
      rw [if_pos hl, lookupG_modG, if_pos rfl, lookupG_append_single, hl]
      simp [afterOf, hl]
    · intro k hk
      show lookupG (modG (diffLibOf line) _
          (if lookupG res (diffLibOf line) = none
           then res ++ [(diffLibOf line, ⟨none, none⟩)] else res)) k = _
      rw [if_pos hl, lookupG_modG, if_neg hk, lookupG_append_single]
      cases hlk : lookupG res k with
      | some e => rfl
      | none => rw [if_neg hk]
  · constructor
    · show lookupG (modG (diffLibOf line) _
          (if lookupG res (diffLibOf line) = none
           then res ++ [(diffLibOf line, ⟨none, none⟩)] else res)) (diffLibOf line) = _
      rw [if_neg hl, lookupG_modG, if_pos rfl]
      cases hlk : lookupG res (diffLibOf line) with
      | none => exact absurd hlk hl
      | some e => simp [afterOf, hlk]
    · intro k hk
      show lookupG (modG (diffLibOf line) _
          (if lookupG res (diffLibOf line) = none
           then res ++ [(diffLibOf line, ⟨none, none⟩)] else res)) k = _
      rw [if_neg hl, lookupG_modG, if_neg hk]

theorem procDiffLine_add (res : List (String × VersionChange)) (line : String)
    (h1 : hasEqEq line.data = true) (h2 : headIs '+' line.data = true) :
    lookupG (procDiffLine res line) (diffLibOf line) =
      some ⟨beforeOf res (diffLibOf line), diffVerOf line⟩
    ∧ ∀ k, k ≠ diffLibOf line → lookupG (procDiffLine res line) k = lookupG res k := by
  have h3 : headIs '-' line.data = false := by
    cases hd : line.data with
    | nil => rw [hd] at h2; simp [headIs] at h2
    | cons c rest =>
      rw [hd] at h2
      simp [headIs] at h2 ⊢
      rw [h2]
      decide
  unfold procDiffLine
  rw [h1, h2, h3]
  by_cases hl : lookupG res (diffLibOf line) = none
  · constructor
    · show lookupG (modG (diffLibOf line) _
          (if lookupG res (diffLibOf line) = none
           then res ++ [(diffLibOf line, ⟨none, none⟩)] else res)) (diffLibOf line) = _
      rw [if_pos hl, lookupG_modG, if_pos rfl, lookupG_append_single, hl]
      simp [beforeOf, hl]
    · intro k hk
      show lookupG (modG (diffLibOf line) _
          (if lookupG res (diffLibOf line) = none
           then res ++ [(diffLibOf line, ⟨none, none⟩)] else res)) k = _
      rw [if_pos hl, lookupG_modG, if_neg hk, lookupG_append_single]
      cases hlk : lookupG res k with
      | some e => rfl
      | none => rw [if_neg hk]
  · constructor
    · show lookupG (modG (diffLibOf line) _
          (if lookupG res (diffLibOf line) = none
           then res ++ [(diffLibOf line, ⟨none, none⟩)] else res)) (diffLibOf line) = _
      rw [if_neg hl, lookupG_modG, if_pos rfl]
      cases hlk : lookupG res (diffLibOf line) with
      | none => exact absurd hlk hl
      | some e => simp [beforeOf, hlk]
    · intro k hk
      show lookupG (modG (diffLibOf line) _
          (if lookupG res (diffLibOf line) = none
           then res ++ [(diffLibOf line, ⟨none, none⟩)] else res)) k = _
      rw [if_neg hl, lookupG_modG, if_neg hk]

theorem procDiffLine_values (res : List (String × VersionChange)) (line : String)
    (h : ∀ k e, lookupG res k = some e → e.before ≠ none ∨ e.after ≠ none) :
    ∀ k e, lookupG (procDiffLine res line) k = some e →
      e.before ≠ none ∨ e.after ≠ none := by
  cases h1 : hasEqEq line.data with
  | false =>
    intro k e hk
    rw [procDiffLine_no_eqeq res line h1] at hk
    exact h k e hk
  | true =>
    cases h2 : headIs '-' line.data with
    | true =>
      intro k e hk
      obtain ⟨hlib, hoth⟩ := procDiffLine_del res line h1 h2
      by_cases hkl : k = diffLibOf line
      · rw [hkl, hlib] at hk
        have he : e = ⟨diffVerOf line, afterOf res (diffLibOf line)⟩ :=
          (Option.some_inj.mp hk).symm
        rw [he]
        exact Or.inl (diffVerOf_ne_none line h1 (Or.inl h2))
      · rw [hoth k hkl] at hk
        exact h k e hk
    | false =>
      cases h3 : headIs '+' line.data with
      | true =>
        intro k e hk
        obtain ⟨hlib, hoth⟩ := procDiffLine_add res line h1 h3
        by_cases hkl : k = diffLibOf line
        · rw [hkl, hlib] at hk
          have he : e = ⟨beforeOf res (diffLibOf line), diffVerOf line⟩ :=
            (Option.some_inj.mp hk).symm
          rw [he]
          exact Or.inr (diffVerOf_ne_none line h1 (Or.inr h3))
        · rw [hoth k hkl] at hk
          exact h k e hk
      | false =>
        intro k e hk
        rw [procDiffLine_no_marker res line h2 h3] at hk
        exact h k e hk

theorem diff_foldl_values (lines : List String) :
    ∀ res, (∀ k e, lookupG res k = some e → e.before ≠ none ∨ e.after ≠ none) →
      ∀ k e, lookupG (lines.foldl procDiffLine res) k = some e →
        e.before ≠ none ∨ e.after ≠ none := by
  induction lines with
  | nil => intro res h; exact h
  | cons l ls ih => intro res h; exact ih _ (procDiffLine_values res l h)

/-! Claim theorems. -/

/-- C1 (code evaluation at the failing input): the claim says
`descendants(graph, start)` returns `start` followed by the packages
transitively reachable over `deps`, and `[start]` when the start node's
`deps` list is empty.  The code instead iterates
`for (const child of tree[parent] || [])` where `tree[parent]` is the
non-iterable node object, so whenever `start` is present in the graph —
here the parse of `"alembic==1.13.1\n    # via flask-migrate"`, whose
`alembic` node has empty `deps` — the call throws a TypeError instead of
returning `["alembic"]`. -/
theorem allDescendantPackages_raises_on_present_start :
    allDescendantPackages
        (parsePinnedRequirementsTree "alembic==1.13.1\n    # via flask-migrate")
        "alembic" =
      Except.error "TypeError: tree[parent] is not iterable" := rfl

/-- C2: parsing `"alembic==1.13.1\n    # via flask-migrate"` yields exactly
two nodes: `alembic` with version `"1.13.1"`, empty `deps` and
`vias = ["flask-migrate"]`, and `flask-migrate` with no version,
`deps = ["alembic"]` and empty `vias` — the via-annotation line under the
pinned line added the current package to the via-package's `deps` and the
via-package to the current package's `vias`. -/
theorem parse_single_dependency_example :
    parsePinnedRequirementsTree "alembic==1.13.1\n    # via flask-migrate" =
      [("alembic", ⟨some "1.13.1", [], ["flask-migrate"]⟩),
       ("flask-migrate", ⟨none, ["alembic"], []⟩)] := by decide

/-- C3: for every pair of graphs, the merged key set is the union of the
two key sets, and for each key of the merge the `deps` (likewise `vias`)
list is the deduplicated union — the first graph's entries first in their
original order, then the second graph's entries not already present — and
the version is the first graph's when non-null and non-empty, else the
second graph's (else absent, since both absent versions merge to `none`). -/
theorem mergeParsedRequirementsTree_spec (a b : Graph) :
    (∀ k, k ∈ keysOf (mergeParsedRequirementsTree a b) ↔ k ∈ keysOf a ∨ k ∈ keysOf b)
    ∧ (∀ k n, lookupG (mergeParsedRequirementsTree a b) k = some n →
        n.deps = jsSetList (depsOf a k) ++
            jsSetList ((depsOf b k).filter (fun x => decide (x ∉ depsOf a k)))
        ∧ n.vias = jsSetList (viasOf a k) ++
            jsSetList ((viasOf b k).filter (fun x => decide (x ∉ viasOf a k)))
        ∧ n.version =
            (if truthyVer (versionOf a k) then versionOf a k else versionOf b k)) := by
  constructor
  · intro k
    rw [keysOf_merge, mem_jsSetList, List.mem_append]
  · intro k n h
    rw [lookupG_merge] at h
    by_cases hm : k ∈ keysOf a ++ keysOf b
    · rw [if_pos hm] at h
      have hn := (Option.some_inj.mp h).symm
      rw [hn]
      exact ⟨jsSetList_append _ _, jsSetList_append _ _, rfl⟩
    · rw [if_neg hm] at h
      exact absurd h (by simp)

/-- Witness for C3 at the spec's own example: merging `{a: {deps: [x]}}`
(version `"1"`) with `{a: {deps: [x, y]}}` gives `a` the deps `[x, y]`,
each exactly once, first fragment's order first. -/
theorem mergeParsedRequirementsTree_spec_witness :
    (ReqNode.mk (some "1") ["x", "y"] []).deps =
        jsSetList (depsOf [("a", ReqNode.mk (some "1") ["x"] [])] "a") ++
          jsSetList ((depsOf [("a", ReqNode.mk none ["x", "y"] [])] "a").filter
            (fun x => decide (x ∉ depsOf [("a", ReqNode.mk (some "1") ["x"] [])] "a")))
      ∧ (ReqNode.mk (some "1") ["x", "y"] []).vias =
        jsSetList (viasOf [("a", ReqNode.mk (some "1") ["x"] [])] "a") ++
          jsSetList ((viasOf [("a", ReqNode.mk none ["x", "y"] [])] "a").filter
            (fun x => decide (x ∉ viasOf [("a", ReqNode.mk (some "1") ["x"] [])] "a")))
      ∧ (ReqNode.mk (some "1") ["x", "y"] []).version =
          (if truthyVer (versionOf [("a", ReqNode.mk (some "1") ["x"] [])] "a")
           then versionOf [("a", ReqNode.mk (some "1") ["x"] [])] "a"
           else versionOf [("a", ReqNode.mk none ["x", "y"] [])] "a") :=
  (mergeParsedRequirementsTree_spec [("a", ReqNode.mk (some "1") ["x"] [])]
      [("a", ReqNode.mk none ["x", "y"] [])]).2 "a" (ReqNode.mk (some "1") ["x", "y"] [])
    (by decide)

/-- C4: the diff extractor touches only lines that contain `"=="` and start
with `'-'` or `'+'`; a `'-'` line sets the package's `before` to the
version parsed after `"=="` (overwriting any earlier value, `after`
untouched and starting as null), a `'+'` line likewise sets `after`;
package names are lowercased; all other lines — including `"=="` lines
with neither marker — leave the result untouched; and the diff
`"-alembic==1.13.0\n+alembic==1.13.1"` yields exactly
`{alembic: {before: "1.13.0", after: "1.13.1"}}` (the extra conjunct shows
the lowercasing on `"+AlemBic==2.0"`). -/
theorem processPythonReqsDiffOutput_spec :
    (∀ res line, hasEqEq line.data = false → procDiffLine res line = res)
    ∧ (∀ res line, headIs '-' line.data = false → headIs '+' line.data = false →
        procDiffLine res line = res)
    ∧ (∀ res line, hasEqEq line.data = true → headIs '-' line.data = true →
        lookupG (procDiffLine res line) (diffLibOf line) =
          some ⟨diffVerOf line, afterOf res (diffLibOf line)⟩
        ∧ ∀ k, k ≠ diffLibOf line → lookupG (procDiffLine res line) k = lookupG res k)
    ∧ (∀ res line, hasEqEq line.data = true → headIs '+' line.data = true →
        lookupG (procDiffLine res line) (diffLibOf line) =
          some ⟨beforeOf res (diffLibOf line), diffVerOf line⟩
        ∧ ∀ k, k ≠ diffLibOf line → lookupG (procDiffLine res line) k = lookupG res k)
    ∧ processPythonReqsDiffOutput "-alembic==1.13.0\n+alembic==1.13.1" =
        [("alembic", ⟨some "1.13.0", some "1.13.1"⟩)]
    ∧ processPythonReqsDiffOutput "+AlemBic==2.0" = [("alembic", ⟨none, some "2.0"⟩)] :=
  ⟨fun res line h => procDiffLine_no_eqeq res line h,
   fun res line h1 h2 => procDiffLine_no_marker res line h1 h2,
   fun res line h1 h2 => procDiffLine_del res line h1 h2,
   fun res line h1 h2 => procDiffLine_add res line h1 h2,
   by decide, by decide⟩

/-- Witness for C4: a removal line applied to an empty result creates the
entry and sets its `before`. -/
theorem processPythonReqsDiffOutput_spec_witness :
    lookupG (procDiffLine [] "-alembic==1.13.0") (diffLibOf "-alembic==1.13.0") =
      some ⟨diffVerOf "-alembic==1.13.0", afterOf [] (diffLibOf "-alembic==1.13.0")⟩ :=
  (processPythonReqsDiffOutput_spec.2.2.1 [] "-alembic==1.13.0" (by decide) (by decide)).1

/-- C5 counterexample: the claim as stated — numeric components imply
component-by-component integer comparison of the written values — fails at
`"9007199254740993.0.0"` versus `"9007199254740992.0.0"`.  All six
components are numeric and written-integer comparison of the first pair
demands `1`, but JS `Number` parses to IEEE-754 doubles and both
`9007199254740993 = 2 ^ 53 + 1` and `9007199254740992 = 2 ^ 53` round to
the same double `2 ^ 53`, so the code falls through on equal components
and returns `0`. -/
theorem compareSemVer_numeric_counterexample :
    decIntOfComp "9007199254740993.0.0" 0 = some 9007199254740993
    ∧ decIntOfComp "9007199254740993.0.0" 1 = some 0
    ∧ decIntOfComp "9007199254740993.0.0" 2 = some 0
    ∧ decIntOfComp "9007199254740992.0.0" 0 = some 9007199254740992
    ∧ decIntOfComp "9007199254740992.0.0" 1 = some 0
    ∧ decIntOfComp "9007199254740992.0.0" 2 = some 0
    ∧ specIntCompare3 9007199254740993 0 0 9007199254740992 0 0 = 1
    ∧ compareSemVer "9007199254740993.0.0" "9007199254740992.0.0" = 0 := by decide

/-- C5 (amended): when the first three dot-separated components of both
version strings are numeric with written values of magnitude at most
`2 ^ 53` — the range where JS `Number` parses integers exactly — the
comparison is exactly component-by-component integer comparison of the
written values (so leading zeros are insignificant and the order is
numeric, not lexicographic), and in particular
`compare("1.01.1","1.1.2") = -1`, `compare("01.1.1","1.1.1") = 0` and
`compare("1.2.10","1.2.2") = 1`.  (Beyond `2 ^ 53` the components are
compared after IEEE-754 rounding, so distinct written integers can
compare equal, as the counterexample shows.) -/
theorem compareSemVer_numeric_spec :
    (∀ (a b : String) (x0 x1 x2 y0 y1 y2 : Int),
        decIntOfComp a 0 = some x0 → decIntOfComp a 1 = some x1 →
        decIntOfComp a 2 = some x2 → decIntOfComp b 0 = some y0 →
        decIntOfComp b 1 = some y1 → decIntOfComp b 2 = some y2 →
        x0.natAbs ≤ 2 ^ 53 → x1.natAbs ≤ 2 ^ 53 → x2.natAbs ≤ 2 ^ 53 →
        y0.natAbs ≤ 2 ^ 53 → y1.natAbs ≤ 2 ^ 53 → y2.natAbs ≤ 2 ^ 53 →
        compareSemVer a b = specIntCompare3 x0 x1 x2 y0 y1 y2)
    ∧ compareSemVer "1.01.1" "1.1.2" = -1
    ∧ compareSemVer "01.1.1" "1.1.1" = 0
    ∧ compareSemVer "1.2.10" "1.2.2" = 1 := by
  refine ⟨?_, by decide, by decide, by decide⟩
  intro a b x0 x1 x2 y0 y1 y2 h0 h1 h2 g0 g1 g2 b0 b1 b2 c0 c1 c2
  exact compareSemVer_componentwise a b x0 x1 x2 y0 y1 y2
    (compAt_of_decIntOfComp h0 b0) (compAt_of_decIntOfComp h1 b1)
    (compAt_of_decIntOfComp h2 b2) (compAt_of_decIntOfComp g0 c0)
    (compAt_of_decIntOfComp g1 c1) (compAt_of_decIntOfComp g2 c2)

/-- Witness for C5: the componentwise description applied at
`"1.2.3"` versus `"1.2.10"`, whose written components are all within the
exactly-representable range. -/
theorem compareSemVer_numeric_spec_witness :
    compareSemVer "1.2.3" "1.2.10" = specIntCompare3 1 2 3 1 2 10 :=
  compareSemVer_numeric_spec.1 "1.2.3" "1.2.10" 1 2 3 1 2 10
    (by decide) (by decide) (by decide) (by decide) (by decide) (by decide)
    (by decide) (by decide) (by decide) (by decide) (by decide) (by decide)

/-- C6: for every pair of input strings the comparator totally evaluates
(no exception is modelled; the function is total) to a value in
`{-1, 0, 1}`; and a non-numeric (`NaN`) or missing (`undefined`) component
is neither greater nor less than anything, so that loop position decides
nothing and comparison falls through to the next component. -/
theorem compareSemVer_total_spec :
    (∀ a b : String,
        compareSemVer a b = -1 ∨ compareSemVer a b = 0 ∨ compareSemVer a b = 1)
    ∧ (∀ x : Option Int, jsGtO none x = false ∧ jsGtO x none = false ∧
        jsLtO none x = false ∧ jsLtO x none = false)
    ∧ (∀ (sa sb : List (Option Int)) (rem i : Nat),
        compAt sa i = none ∨ compAt sb i = none →
        semverRem sa sb (rem + 1) i = semverRem sa sb rem (i + 1)) :=
  ⟨fun a b => semverRem_range (semverComps a) (semverComps b) 3 0,
   fun x => ⟨jsGtO_none_left x, jsGtO_none_right x, jsLtO_none_left x, jsLtO_none_right x⟩,
   fun sa sb rem i h => semverRem_skip sa sb rem i h⟩

/-- Witness for C6: the fall-through equation applied at a concrete
`NaN` first component. -/
theorem compareSemVer_total_spec_witness :
    semverRem [none, some 1] [some 2, some 1] 3 0 =
      semverRem [none, some 1] [some 2, some 1] 2 1 :=
  compareSemVer_total_spec.2.2 [none, some 1] [some 2, some 1] 2 0 (Or.inl (by decide))

/-- C7: every graph produced by the parser satisfies the bidirectional-edge
invariant (`A ∈ deps(B)` iff `B ∈ vias(A)`, both nodes being keys), and
the merge of two graphs satisfying the invariant satisfies it as well. -/
theorem graph_edge_invariant_spec :
    (∀ s, EdgeInvariant (parsePinnedRequirementsTree s))
    ∧ ∀ a b, EdgeInvariant a → EdgeInvariant b →
        EdgeInvariant (mergeParsedRequirementsTree a b) := by
  refine ⟨edgeInvariant_parse, ?_⟩
  intro a b ha hb
  rw [edgeInvariant_iff] at ha hb ⊢
  intro A B
  rw [depsOf_merge_mem, viasOf_merge_mem, ha A B, hb A B]

/-- Witness for C7: the merge of two concrete parsed graphs satisfies the
invariant, the hypotheses being discharged by the parser half of the
theorem itself. -/
theorem graph_edge_invariant_spec_witness :
    EdgeInvariant (mergeParsedRequirementsTree
      (parsePinnedRequirementsTree "alembic==1.13.1\n    # via flask-migrate")
      (parsePinnedRequirementsTree "bcrypt==4.0.1\n    # via paramiko")) :=
  graph_edge_invariant_spec.2 _ _
    (graph_edge_invariant_spec.1 "alembic==1.13.1\n    # via flask-migrate")
    (graph_edge_invariant_spec.1 "bcrypt==4.0.1\n    # via paramiko")

/-- C8: when the start package is not a key of the graph, the walker
raises nothing and returns exactly `[start]`: the `|| []` fallback makes
the missing node's dependents an empty list. -/
theorem allDescendantPackages_missing_start (tree : Graph) (start : String)
    (h : lookupG tree start = none) :
    allDescendantPackages tree start = Except.ok [start] := by
  unfold allDescendantPackages
  rw [h]

/-- Witness for C8: the walker on the empty graph. -/
theorem allDescendantPackages_missing_start_witness :
    allDescendantPackages [] "alembic" = Except.ok ["alembic"] :=
  allDescendantPackages_missing_start [] "alembic" rfl

/-- C9: when no dot-separated component of either version string parses as
a number, the comparator returns `0` — fully malformed versions are all
mutually equivalent. -/
theorem compareSemVer_malformed_spec (a b : String)
    (ha : ∀ c ∈ splitOnChar '.' a.data, jsNumber c = none)
    (_hb : ∀ c ∈ splitOnChar '.' b.data, jsNumber c = none) :
    compareSemVer a b = 0 := by
  have ha2 := compAt_none_of_all_none ha
  rw [compareSemVer_unfold, ha2 0, ha2 1, ha2 2]
  simp [jsGtO_none_left, jsLtO_none_left]

/-- Witness for C9: `compare("foo", "bar") = 0`. -/
theorem compareSemVer_malformed_spec_witness : compareSemVer "foo" "bar" = 0 :=
  compareSemVer_malformed_spec "foo" "bar" (by decide) (by decide)

/-- C10: every entry in the diff-extractor output has at least one of its
`before`/`after` fields non-null: an entry is created only by a `'+'` or
`'-'` pin line and that same line immediately assigns one of the two
fields a string. -/
theorem diff_entries_have_value (raw k : String) (e : VersionChange)
    (h : lookupG (processPythonReqsDiffOutput raw) k = some e) :
    e.before ≠ none ∨ e.after ≠ none := by
  refine diff_foldl_values ((splitOnChar '\n' raw.data).map String.mk) [] ?_ k e h
  intro k2 e2 h2
  simp [lookupG] at h2

/-- Witness for C10 on a one-line removal diff. -/
theorem diff_entries_have_value_witness :
    (VersionChange.mk (some "1.13.0") none).before ≠ none ∨
      (VersionChange.mk (some "1.13.0") none).after ≠ none :=
  diff_entries_have_value "-alembic==1.13.0" "alembic" ⟨some "1.13.0", none⟩ (by decide)

end Supersetbot
